import Mathlib

/-!
Verification of the 1-Wire / DS18B20 MicroPython driver
(`onewire_lib.py`, `ds18b20.py`).

The development shallowly embeds the pure and bus-facing logic of the
driver:

* `crc8` — the Dallas/Maxim CRC-8 of `OneWire.crc8`;
* `romSearch` — the ROM-search loop of `OneWire.rom_search`, over an
  oracle environment that supplies the result of each bus reset and of
  each 1-bit read slot (`none` models the hardware call raising an
  exception);
* `readTemperatures` — `DS18B20.read_temperatures`, over an oracle
  environment that supplies the result of each bus reset and of each
  byte read.

Stateful bus interaction is modelled by explicit state passing: the
state records how many resets / byte reads / byte writes have been
performed (so the oracle can answer the n-th operation) and, for the
OneWire layer, the current framing width of the PIO state machine.
-/

namespace OneWirePio

/-! ## CRC-8 (`OneWire.crc8`)

Python source:
```
crc = 0
for byte in data:
    crc ^= byte
    for _ in range(8):
        if crc & 0x01:
            crc = (crc >> 1) ^ 0x8C
        else:
            crc >>= 1
return crc
```
-/

/-- One iteration of the inner `for _ in range(8)` loop of `crc8`. -/
def crcRound (crc : Nat) : Nat :=
  if crc &&& 1 = 1 then (crc >>> 1) ^^^ 0x8C else crc >>> 1

/-- `n` iterations of the inner loop. -/
def crcRounds : Nat → Nat → Nat
  | 0, c => c
  | n + 1, c => crcRounds n (crcRound c)

/-- Processing of one byte by `crc8`: `crc ^= byte` followed by eight
    inner-loop iterations. -/
def crcByte (crc b : Nat) : Nat := crcRounds 8 (crc ^^^ b)

/-- `OneWire.crc8`, translated from `onewire_lib.py`. -/
def crc8 (data : List Nat) : Nat := data.foldl crcByte 0

/-- Modelled from the spec: one step of the reference bitwise Dallas/Maxim
    CRC-8 — "XOR the incoming bit into the low bit of the 8-bit
    accumulator, then right-shift and XOR with 0x8C if that low bit was 1,
    else right-shift only". -/
def crcBitStep (crc bit : Nat) : Nat :=
  if (crc ^^^ bit) &&& 1 = 1 then ((crc ^^^ bit) >>> 1) ^^^ 0x8C
  else (crc ^^^ bit) >>> 1

/-- Modelled from the spec: process the `n` lowest bits of `b`,
    least-significant-bit first, through `crcBitStep`. -/
def crcBitsRef : Nat → Nat → Nat → Nat
  | 0, c, _ => c
  | n + 1, c, b => crcBitsRef n (crcBitStep c (b &&& 1)) (b >>> 1)

/-- Modelled from the spec: the reference bitwise CRC-8 over a byte
    sequence, each byte processed least-significant-bit first starting
    from accumulator 0. -/
def crc8Ref (data : List Nat) : Nat :=
  data.foldl (fun c b => crcBitsRef 8 c b) 0

theorem shiftRight_one_eq_div (a : Nat) : a >>> 1 = a / 2 := by
  simpa using Nat.shiftRight_succ a 0

theorem xor_shiftRight_one (a b : Nat) :
    (a ^^^ b) >>> 1 = a >>> 1 ^^^ b >>> 1 := by
  apply Nat.eq_of_testBit_eq
  intro i
  simp [Nat.testBit_shiftRight, Nat.testBit_xor]

/-- Key commutation: one inner-loop round on `c ^^^ b` equals one
    reference bit-step on the low bit of `b`, XORed with the remaining
    (shifted) upper bits of `b`. -/
theorem crcRound_xor (c b : Nat) :
    crcRound (c ^^^ b) = crcBitStep c (b &&& 1) ^^^ (b >>> 1) := by
  have hand : (c ^^^ (b &&& 1)) &&& 1 = (c ^^^ b) &&& 1 := by
    rw [Nat.and_xor_distrib_right, Nat.and_xor_distrib_right]
    have h11 : b &&& 1 &&& 1 = b &&& 1 := by
      rw [Nat.and_one_is_mod (b &&& 1), Nat.and_one_is_mod b]
      omega
    rw [h11]
  have hshift : (c ^^^ (b &&& 1)) >>> 1 = c >>> 1 := by
    rw [xor_shiftRight_one]
    have hz : (b &&& 1) >>> 1 = 0 := by
      rw [Nat.and_one_is_mod, shiftRight_one_eq_div]
      omega
    rw [hz, Nat.xor_zero]
  by_cases h : (c ^^^ b) &&& 1 = 1
  · have h2 : (c ^^^ (b &&& 1)) &&& 1 = 1 := by rw [hand]; exact h
    unfold crcRound crcBitStep
    rw [if_pos h, if_pos h2, hshift, xor_shiftRight_one]
    rw [Nat.xor_assoc, Nat.xor_comm (b >>> 1) 0x8C, ← Nat.xor_assoc]
  · have h2 : ¬(c ^^^ (b &&& 1)) &&& 1 = 1 := by rw [hand]; exact h
    unfold crcRound crcBitStep
    rw [if_neg h, if_neg h2, hshift, xor_shiftRight_one]

/-- `n` inner-loop rounds on `c ^^^ b` equal `n` reference bit-steps on
    the low bits of `b`, XORed with the not-yet-consumed upper bits. -/
theorem crcRounds_xor (n : Nat) : ∀ c b : Nat,
    crcRounds n (c ^^^ b) = crcBitsRef n c b ^^^ (b >>> n) := by
  induction n with
  | zero => intro c b; simp [crcRounds, crcBitsRef]
  | succ n ih =>
    intro c b
    show crcRounds n (crcRound (c ^^^ b)) = _
    rw [crcRound_xor, ih, crcBitsRef]
    congr 1
    rw [← Nat.shiftRight_add]
    congr 1
    omega

/-- For a genuine byte (`b < 256`), the code's byte processing agrees
    with the reference bitwise processing. -/
theorem crcByte_eq_ref (c b : Nat) (hb : b < 256) :
    crcByte c b = crcBitsRef 8 c b := by
  unfold crcByte
  rw [crcRounds_xor]
  have : b >>> 8 = 0 := by
    rw [Nat.shiftRight_eq_div_pow]
    omega
  rw [this, Nat.xor_zero]

theorem crc8_foldl_eq_ref (data : List Nat) :
    ∀ c : Nat, (∀ b ∈ data, b < 256) →
      data.foldl crcByte c = data.foldl (fun c b => crcBitsRef 8 c b) c := by
  induction data with
  | nil => intro c _; rfl
  | cons x xs ih =>
    intro c hd
    have hx : x < 256 := hd x (List.mem_cons_self x xs)
    show xs.foldl crcByte (crcByte c x) = xs.foldl _ (crcBitsRef 8 c x)
    rw [crcByte_eq_ref c x hx]
    exact ih _ (fun b hb => hd b (List.mem_cons_of_mem x hb))

/-- C3: crc8 agrees with the reference Dallas/Maxim bitwise CRC-8 on
    every sequence of genuine bytes. -/
theorem crc8_eq_crc8Ref (data : List Nat) (h : ∀ b ∈ data, b < 256) :
    crc8 data = crc8Ref data :=
  crc8_foldl_eq_ref data 0 h

/-! ### Injectivity of the CRC state transition

Each inner-loop round is a bijection on 8-bit states, so processing a
fixed byte sequence is injective in the starting accumulator.  This is
what makes the CRC detect every single-bit error. -/

theorem crcRound_lt (c : Nat) (h : c < 256) : crcRound c < 256 := by
  unfold crcRound
  have hdiv : c >>> 1 < 256 := by rw [shiftRight_one_eq_div]; omega
  by_cases hp : c &&& 1 = 1
  · rw [if_pos hp]
    have h256 : (256 : Nat) = 2 ^ 8 := by norm_num
    rw [h256] at hdiv ⊢
    exact Nat.xor_lt_two_pow hdiv (by norm_num)
  · rw [if_neg hp]; exact hdiv

theorem crcRound_inj (c1 c2 : Nat) (h1 : c1 < 256) (h2 : c2 < 256)
    (h : crcRound c1 = crcRound c2) : c1 = c2 := by
  have hd1 : c1 >>> 1 = c1 / 2 := shiftRight_one_eq_div c1
  have hd2 : c2 >>> 1 = c2 / 2 := shiftRight_one_eq_div c2
  have ht1 : (c1 >>> 1).testBit 7 = false := by
    exact Nat.testBit_lt_two_pow (by rw [hd1]; omega)
  have ht2 : (c2 >>> 1).testBit 7 = false := by
    exact Nat.testBit_lt_two_pow (by rw [hd2]; omega)
  have hm1 := Nat.and_one_is_mod c1
  have hm2 := Nat.and_one_is_mod c2
  unfold crcRound at h
  by_cases hp1 : c1 &&& 1 = 1 <;> by_cases hp2 : c2 &&& 1 = 1
  · rw [if_pos hp1, if_pos hp2] at h
    have heq : c1 >>> 1 = c2 >>> 1 := Nat.xor_left_injective h
    rw [hd1, hd2] at heq
    omega
  · rw [if_pos hp1, if_neg hp2] at h
    have hb : ((c1 >>> 1) ^^^ 0x8C).testBit 7 = true := by
      rw [Nat.testBit_xor, ht1]
      decide
    rw [h, ht2] at hb
    exact absurd hb (by simp)
  · rw [if_neg hp1, if_pos hp2] at h
    have hb : ((c2 >>> 1) ^^^ 0x8C).testBit 7 = true := by
      rw [Nat.testBit_xor, ht2]
      decide
    rw [← h, ht1] at hb
    exact absurd hb (by simp)
  · rw [if_neg hp1, if_neg hp2] at h
    rw [hd1, hd2] at h
    omega

theorem crcRounds_lt : ∀ (n c : Nat), c < 256 → crcRounds n c < 256
  | 0, _, h => h
  | n + 1, c, h => crcRounds_lt n (crcRound c) (crcRound_lt c h)

theorem crcRounds_inj : ∀ (n c1 c2 : Nat), c1 < 256 → c2 < 256 →
    crcRounds n c1 = crcRounds n c2 → c1 = c2
  | 0, _, _, _, _, h => h
  | n + 1, c1, c2, h1, h2, h =>
    crcRound_inj c1 c2 h1 h2
      (crcRounds_inj n _ _ (crcRound_lt c1 h1) (crcRound_lt c2 h2) h)

theorem xor_lt_256 {a b : Nat} (ha : a < 256) (hb : b < 256) :
    a ^^^ b < 256 := by
  have h256 : (256 : Nat) = 2 ^ 8 := by norm_num
  rw [h256] at ha hb ⊢
  exact Nat.xor_lt_two_pow ha hb

theorem crcByte_lt {c b : Nat} (hc : c < 256) (hb : b < 256) :
    crcByte c b < 256 :=
  crcRounds_lt 8 _ (xor_lt_256 hc hb)

theorem crcByte_inj_state {b c1 c2 : Nat} (hc1 : c1 < 256) (hc2 : c2 < 256)
    (hb : b < 256) (h : crcByte c1 b = crcByte c2 b) : c1 = c2 := by
  have := crcRounds_inj 8 _ _ (xor_lt_256 hc1 hb) (xor_lt_256 hc2 hb) h
  exact Nat.xor_left_injective this

theorem crcByte_inj_byte {c b1 b2 : Nat} (hc : c < 256) (hb1 : b1 < 256)
    (hb2 : b2 < 256) (h : crcByte c b1 = crcByte c b2) : b1 = b2 := by
  have := crcRounds_inj 8 _ _ (xor_lt_256 hc hb1) (xor_lt_256 hc hb2) h
  exact Nat.xor_right_injective this

theorem foldl_crcByte_lt : ∀ (data : List Nat) (c : Nat),
    (∀ x ∈ data, x < 256) → c < 256 → data.foldl crcByte c < 256
  | [], _, _, hc => hc
  | x :: xs, c, hd, hc =>
    foldl_crcByte_lt xs (crcByte c x)
      (fun b hb => hd b (List.mem_cons_of_mem x hb))
      (crcByte_lt hc (hd x (List.mem_cons_self x xs)))

theorem foldl_crcByte_inj : ∀ (data : List Nat), (∀ x ∈ data, x < 256) →
    ∀ c1 c2 : Nat, c1 < 256 → c2 < 256 →
    data.foldl crcByte c1 = data.foldl crcByte c2 → c1 = c2
  | [], _, _, _, _, _, h => h
  | x :: xs, hd, c1, c2, h1, h2, h => by
    have hx : x < 256 := hd x (List.mem_cons_self x xs)
    have hxs : ∀ b ∈ xs, b < 256 := fun b hb => hd b (List.mem_cons_of_mem x hb)
    have hstep : crcByte c1 x = crcByte c2 x :=
      foldl_crcByte_inj xs hxs _ _ (crcByte_lt h1 hx) (crcByte_lt h2 hx) h
    exact crcByte_inj_state h1 h2 hx hstep

theorem one_shiftLeft_lt_256 {j : Nat} (hj : j < 8) : 1 <<< j < 256 := by
  rw [Nat.shiftLeft_eq, Nat.one_mul]
  calc 2 ^ j < 2 ^ 8 := Nat.pow_lt_pow_right (by omega) hj
    _ = 256 := by norm_num

theorem one_shiftLeft_ne_zero (j : Nat) : 1 <<< j ≠ 0 := by
  rw [Nat.shiftLeft_eq, Nat.one_mul]
  exact Nat.pos_iff_ne_zero.mp (Nat.pos_pow_of_pos j (by omega))

/-- Flipping bit `j` of the byte at index `k` changes the final CRC
    accumulator, whatever the starting accumulator (below 256) is. -/
theorem foldl_crcByte_set_ne : ∀ (data : List Nat) (k j c : Nat),
    (∀ x ∈ data, x < 256) → c < 256 → k < data.length → j < 8 →
    (data.set k (data.getD k 0 ^^^ (1 <<< j))).foldl crcByte c ≠
      data.foldl crcByte c
  | [], k, _, _, _, _, hk, _ => absurd hk (by simp)
  | x :: xs, 0, j, c, hd, hc, _, hj => by
    have hx : x < 256 := hd x (List.mem_cons_self x xs)
    have hxs : ∀ b ∈ xs, b < 256 := fun b hb => hd b (List.mem_cons_of_mem x hb)
    simp only [List.set_cons_zero, List.getD_cons_zero, List.foldl_cons]
    intro h
    have hflip : x ^^^ (1 <<< j) < 256 := xor_lt_256 hx (one_shiftLeft_lt_256 hj)
    have hstep : crcByte c (x ^^^ (1 <<< j)) = crcByte c x :=
      foldl_crcByte_inj xs hxs _ _ (crcByte_lt hc hflip) (crcByte_lt hc hx) h
    have hbyte : x ^^^ (1 <<< j) = x := crcByte_inj_byte hc hflip hx hstep
    have hz : (1 <<< j) = 0 := by
      have hc2 := congrArg (fun t => x ^^^ t) hbyte.symm
      exact (by simpa [← Nat.xor_assoc] using hc2 : (0 : Nat) = 1 <<< j).symm
    exact one_shiftLeft_ne_zero j hz
  | x :: xs, k + 1, j, c, hd, hc, hk, hj => by
    have hx : x < 256 := hd x (List.mem_cons_self x xs)
    have hxs : ∀ b ∈ xs, b < 256 := fun b hb => hd b (List.mem_cons_of_mem x hb)
    simp only [List.set_cons_succ, List.getD_cons_succ, List.foldl_cons]
    exact foldl_crcByte_set_ne xs k j (crcByte c x) hxs (crcByte_lt hc hx)
      (by simpa using hk) hj

theorem crcRounds_zero : crcRounds 8 0 = 0 := rfl

/-- C6: appending the CRC of a byte sequence yields overall CRC 0, and
    on any sequence of bytes whose CRC is 0, flipping any single bit of
    any one byte makes the CRC nonzero. -/
theorem crc8_append_self_and_bitflip (d : List Nat) (h : ∀ b ∈ d, b < 256) :
    crc8 (d ++ [crc8 d]) = 0 ∧
    (crc8 d = 0 → ∀ k, k < d.length → ∀ j, j < 8 →
      crc8 (d.set k (d.getD k 0 ^^^ (1 <<< j))) ≠ 0) := by
  constructor
  · show (d ++ [crc8 d]).foldl crcByte 0 = 0
    rw [List.foldl_append]
    show crcRounds 8 (d.foldl crcByte 0 ^^^ crc8 d) = 0
    show crcRounds 8 (crc8 d ^^^ crc8 d) = 0
    rw [Nat.xor_self]
    exact crcRounds_zero
  · intro h0 k hk j hj
    intro hbad
    have heq : crc8 (d.set k (d.getD k 0 ^^^ (1 <<< j))) = crc8 d := by
      rw [hbad, h0]
    exact foldl_crcByte_set_ne d k j 0 h (by omega) hk hj heq

/-! ## DS18B20 (`ds18b20.py`)

`DS18B20.read_temperatures` is embedded over an oracle environment
`Bus8` that answers the n-th `reset()` call and the n-th `read_byte()`
call; the state `DSState` counts how many resets, byte writes and byte
reads have been issued so far.  Temperatures are modelled as rationals:
the Python computation `raw / 16.0` is exact for every 16-bit signed
`raw`, so the rational value coincides with the float the code produces.
The ROM hex string `f"0x{rom:016x}"` is represented by the ROM code
itself (the formatting is injective on 64-bit codes). -/

/-- Oracle for the byte-framed bus as seen by `DS18B20`. -/
structure Bus8 where
  resetAt : Nat → Bool
  readAt : Nat → Nat

@[ext]
structure DSState where
  resets : Nat
  writes : Nat
  reads : Nat
deriving DecidableEq

def dsInit : DSState := ⟨0, 0, 0⟩

/-- `OneWire.reset()` as seen by the DS18B20 layer. -/
def doReset (env : Bus8) (s : DSState) : Bool × DSState :=
  (env.resetAt s.resets, { s with resets := s.resets + 1 })

/-- `OneWire.write_byte(v)` (the echoed dummy word is discarded). -/
def doWrite (_v : Nat) (s : DSState) : DSState :=
  { s with writes := s.writes + 1 }

/-- `OneWire.read_byte()`. -/
def doRead (env : Bus8) (s : DSState) : Nat × DSState :=
  (env.readAt s.reads, { s with reads := s.reads + 1 })

/-- The conversion-completion poll:
    `while timeout > 0: sleep; if read_byte() == 0xFF: break; timeout -= 1`. -/
def pollLoop (env : Bus8) : Nat → DSState → DSState
  | 0, s => s
  | t + 1, s =>
    let r := doRead env s
    if r.1 = 0xFF then r.2 else pollLoop env t r.2

/-- `for b in range(8): write_byte((rom >> (b*8)) & 0xFF)`. -/
def writeRomBytes (rom : Nat) (s : DSState) : DSState :=
  (List.range 8).foldl (fun s b => doWrite ((rom >>> (b * 8)) &&& 0xFF) s) s

/-- `for i in range(9): data[i] = read_byte()`. -/
def readBytes (env : Bus8) : Nat → DSState → List Nat × DSState
  | 0, s => ([], s)
  | n + 1, s =>
    let r := doRead env s
    let rest := readBytes env n r.2
    (r.1 :: rest.1, rest.2)

/-- `raw = (data[1] << 8) | data[0]`. -/
def rawOf (b0 b1 : Nat) : Nat := (b1 <<< 8) ||| b0

/-- `if raw & 0x8000: raw = -((raw ^ 0xFFFF) + 1)`. -/
def signedRaw (raw : Nat) : Int :=
  if raw &&& 0x8000 ≠ 0 then -(((raw ^^^ 0xFFFF) + 1 : Nat) : Int)
  else (raw : Int)

/-- `temp_c = raw / 16.0`, exact as a rational. -/
def decodeRaw (raw : Nat) : ℚ := (signedRaw raw : ℚ) / 16

/-- Temperature decode from scratchpad bytes 0 and 1. -/
def decodeTemp (b0 b1 : Nat) : ℚ := decodeRaw (rawOf b0 b1)

/-- The per-device read loop of `read_temperatures` (step 3): for each
    ROM, reset, address the device, read 9 scratchpad bytes, and append
    a reading — decoded when the CRC over the 9 bytes is 0, `none`
    otherwise.  A device whose reset reports no presence is skipped. -/
def readDevices (env : Bus8) : List Nat → DSState → List (Nat × Option ℚ) × DSState
  | [], s => ([], s)
  | rom :: rest, s =>
    let r := doReset env s
    if r.1 then
      let s1 := doWrite 0x55 r.2
      let s2 := writeRomBytes rom s1
      let s3 := doWrite 0xBE s2
      let rd := readBytes env 9 s3
      let data := rd.1
      let entry : Nat × Option ℚ :=
        if crc8 data = 0 then
          (rom, some (decodeTemp (data.getD 0 0) (data.getD 1 0)))
        else (rom, none)
      let tl := readDevices env rest rd.2
      (entry :: tl.1, tl.2)
    else
      readDevices env rest r.2

/-- `DS18B20.read_temperatures`, translated from `ds18b20.py`. -/
def readTemperatures (env : Bus8) (roms : List Nat) :
    List (Nat × Option ℚ) × DSState :=
  if roms = [] then ([], dsInit)
  else
    let r := doReset env dsInit
    if r.1 then
      let s1 := doWrite 0xCC r.2
      let s2 := doWrite 0x44 s1
      let s3 := pollLoop env 100 s2
      readDevices env roms s3
    else ([], r.2)

/-- The 9 environment bytes starting at read index `start`. -/
def bytesFrom (env : Bus8) : Nat → Nat → List Nat
  | _, 0 => []
  | start, n + 1 => env.readAt start :: bytesFrom env (start + 1) n

/-- Modelled from the spec: the expected result of the per-device loop
    when every reset reports presence — one reading per ROM code, in
    order, decoded when the CRC over its 9 scratchpad bytes is 0 and
    `none` otherwise. -/
def expectedReadings (env : Bus8) : Nat → List Nat → List (Nat × Option ℚ)
  | _, [] => []
  | start, rom :: rest =>
    let data := bytesFrom env start 9
    (if crc8 data = 0 then
      (rom, some (decodeTemp (data.getD 0 0) (data.getD 1 0)))
     else (rom, none)) :: expectedReadings env (start + 9) rest

theorem readBytes_spec (env : Bus8) : ∀ (n : Nat) (s : DSState),
    readBytes env n s = (bytesFrom env s.reads n, { s with reads := s.reads + n }) := by
  intro n
  induction n with
  | zero =>
    intro s
    simp only [readBytes, bytesFrom]
    refine congrArg _ ?_
    ext <;> simp
  | succ n ih =>
    intro s
    simp only [readBytes, doRead]
    rw [ih]
    simp only [Prod.mk.injEq]
    try constructor
    all_goals try simp [bytesFrom]
    all_goals try (ext <;> simp)
    all_goals omega

theorem writeRomBytes_spec (rom : Nat) (s : DSState) :
    writeRomBytes rom s = { s with writes := s.writes + 8 } := by
  have h8 : List.range 8 = [0, 1, 2, 3, 4, 5, 6, 7] := rfl
  simp only [writeRomBytes, h8, List.foldl_cons, List.foldl_nil, doWrite]

theorem pollLoop_state (env : Bus8) : ∀ (t : Nat) (s : DSState),
    ∃ k, k ≤ t ∧ pollLoop env t s = { s with reads := s.reads + k } := by
  intro t
  induction t with
  | zero =>
    intro s
    refine ⟨0, by omega, ?_⟩
    simp only [pollLoop]
    ext <;> simp
  | succ t ih =>
    intro s
    simp only [pollLoop, doRead]
    by_cases h : env.readAt s.reads = 0xFF
    · rw [if_pos h]
      exact ⟨1, by omega, rfl⟩
    · rw [if_neg h]
      obtain ⟨k, hk, he⟩ := ih { s with reads := s.reads + 1 }
      refine ⟨k + 1, by omega, ?_⟩
      rw [he]
      ext <;> simp <;> omega

theorem pollLoop_timeout (env : Bus8) : ∀ (t : Nat) (s : DSState),
    (∀ i, i < t → env.readAt (s.reads + i) ≠ 0xFF) →
    pollLoop env t s = { s with reads := s.reads + t } := by
  intro t
  induction t with
  | zero =>
    intro s _
    simp only [pollLoop]
    ext <;> simp
  | succ t ih =>
    intro s h
    have h0 : env.readAt s.reads ≠ 0xFF := by
      have := h 0 (by omega)
      simpa using this
    simp only [pollLoop, doRead]
    rw [if_neg h0]
    have hrest : ∀ i, i < t →
        env.readAt (({ s with reads := s.reads + 1 } : DSState).reads + i) ≠ 0xFF := by
      intro i hi
      have := h (i + 1) (by omega)
      simpa [Nat.add_assoc, Nat.add_comm 1 i] using this
    rw [ih _ hrest]
    ext <;> simp <;> omega

theorem readDevices_spec (env : Bus8) (hr : ∀ n, env.resetAt n = true) :
    ∀ (roms : List Nat) (s : DSState),
    readDevices env roms s =
      (expectedReadings env s.reads roms,
       { s with resets := s.resets + roms.length,
                writes := s.writes + 10 * roms.length,
                reads := s.reads + 9 * roms.length }) := by
  intro roms
  induction roms with
  | nil =>
    intro s
    simp only [readDevices, expectedReadings, List.length_nil]
    refine congrArg _ ?_
    ext <;> simp
  | cons rom rest ih =>
    intro s
    simp only [readDevices, doReset, hr, if_true, doWrite, writeRomBytes_spec,
      readBytes_spec, ih, expectedReadings, List.length_cons, Prod.mk.injEq]
    try constructor
    all_goals try trivial
    all_goals try (ext <;> simp)
    all_goals omega

theorem expectedReadings_map_fst (env : Bus8) : ∀ (start : Nat) (roms : List Nat),
    (expectedReadings env start roms).map Prod.fst = roms := by
  intro start roms
  induction roms generalizing start with
  | nil => rfl
  | cons rom rest ih =>
    simp only [expectedReadings, List.map_cons]
    rw [ih]
    congr 1
    by_cases h : crc8 (bytesFrom env start 9) = 0 <;> simp [h]

/-- C10: with no stored ROM codes, `read_temperatures` returns the empty
    list at once, performing no reset, no byte write (hence no broadcast)
    and no byte read (hence no completion poll). -/
theorem readTemperatures_no_devices (env : Bus8) :
    readTemperatures env [] = ([], ⟨0, 0, 0⟩) := rfl

/-- C7: when the initial bus reset reports no presence,
    `read_temperatures` returns the empty list (the embedding is total,
    so no error is raised); the final state records that only that single
    reset was performed. -/
theorem readTemperatures_reset_fail (env : Bus8) (roms : List Nat)
    (hne : roms ≠ []) (hr : env.resetAt 0 = false) :
    readTemperatures env roms = ([], ⟨1, 0, 0⟩) := by
  simp [readTemperatures, hne, doReset, dsInit, hr]

/-- C9: the conversion-completion poll performs at most 100 byte reads,
    and when the bus never reads as 0xFF within that budget the poll
    consumes exactly 100 reads and `read_temperatures` still proceeds to
    the per-device scratchpad reads. -/
theorem readTemperatures_poll_bounded (env : Bus8) (roms : List Nat)
    (hne : roms ≠ []) (hr : env.resetAt 0 = true) :
    (∀ s : DSState, (pollLoop env 100 s).reads ≤ s.reads + 100) ∧
    ((∀ i, i < 100 → env.readAt i ≠ 0xFF) →
      readTemperatures env roms = readDevices env roms ⟨1, 2, 100⟩) := by
  constructor
  · intro s
    obtain ⟨k, hk, he⟩ := pollLoop_state env 100 s
    rw [he]
    simp
    omega
  · intro hto
    have hpoll : pollLoop env 100 (⟨1, 2, 0⟩ : DSState) = ⟨1, 2, 100⟩ := by
      have h := pollLoop_timeout env 100 ⟨1, 2, 0⟩
        (by intro i hi; simpa using hto i hi)
      simpa using h
    simp [readTemperatures, hne, doReset, dsInit, hr, doWrite, hpoll]

/-- C1 (amended): when the ROM list is non-empty and every bus reset —
    the initial one and each per-device one — reports presence,
    `read_temperatures` returns exactly one reading per stored ROM code,
    in order: the decoded temperature of its 9 scratchpad bytes when
    their CRC-8 is 0, and the failure marker `none` otherwise. -/
theorem readTemperatures_every_device (env : Bus8) (roms : List Nat)
    (hne : roms ≠ []) (hr : ∀ n, env.resetAt n = true) :
    (readTemperatures env roms).1 =
      expectedReadings env (pollLoop env 100 ⟨1, 2, 0⟩).reads roms ∧
    (readTemperatures env roms).1.map Prod.fst = roms := by
  have hmain : (readTemperatures env roms).1 =
      expectedReadings env (pollLoop env 100 ⟨1, 2, 0⟩).reads roms := by
    simp [readTemperatures, hne, doReset, dsInit, hr 0, doWrite,
      readDevices_spec env hr]
  exact ⟨hmain, by rw [hmain, expectedReadings_map_fst]⟩

/-- C1 counterexample: with one stored ROM code and a bus whose initial
    reset reports presence but whose second (per-device) reset does not,
    `read_temperatures` returns an empty list — the device is silently
    omitted, with no reading (and no CRC-failure marker) recorded for it. -/
theorem readTemperatures_omits_device :
    (⟨fun n => n == 0, fun _ => 0xFF⟩ : Bus8).resetAt 0 = true ∧
    (⟨fun n => n == 0, fun _ => 0xFF⟩ : Bus8).resetAt 1 = false ∧
    (readTemperatures ⟨fun n => n == 0, fun _ => 0xFF⟩ [5]).1 = [] := by
  refine ⟨rfl, rfl, rfl⟩

/-- Modelled from the spec: 16-bit two's-complement sign extension — the
    value itself below 2^15, the value minus 2^16 otherwise. -/
def sextSpec (raw : Nat) : Int :=
  if raw < 32768 then (raw : Int) else (raw : Int) - 65536

theorem xor_ffff (raw : Nat) (h : raw < 65536) :
    raw ^^^ 0xFFFF = 65535 - raw := by
  apply Nat.eq_of_testBit_eq
  intro i
  have hp16 : (2 : Nat) ^ 16 = 65536 := by norm_num
  have h16 : (0xFFFF : Nat) = 2 ^ 16 - 1 := by norm_num
  have hsub : 65535 - raw = 2 ^ 16 - (raw + 1) := by rw [hp16]; omega
  have hraw : raw < 2 ^ 16 := by rw [hp16]; omega
  rw [hsub, h16, Nat.testBit_xor, Nat.testBit_two_pow_sub_one,
    Nat.testBit_two_pow_sub_succ hraw]
  by_cases hi : i < 16
  · simp [hi]
  · have hbit : raw.testBit i = false := by
      refine Nat.testBit_lt_two_pow (lt_of_lt_of_le hraw ?_)
      exact Nat.pow_le_pow_right (by omega) (by omega)
    simp [hi, hbit]

/-- C5: the decoder takes the little-endian 16-bit raw value, sign
    extends it as two's complement (shown against the spec-side
    `sextSpec`), divides by 16, and reproduces the four vendor reference
    points. -/
theorem decode_signext_and_vectors :
    (∀ raw : Nat, raw < 65536 → signedRaw raw = sextSpec raw) ∧
    decodeTemp 0x90 0x01 = 25 ∧
    decodeTemp 0x5E 0xFF = -10.125 ∧
    decodeTemp 0xD0 0x07 = 125 ∧
    decodeTemp 0x90 0xFC = -55 := by
  refine ⟨?_, ?_, ?_, ?_, ?_⟩
  case refine_2 =>
    show ((signedRaw (rawOf 0x90 0x01) : Int) : ℚ) / 16 = 25
    rw [(by decide : signedRaw (rawOf 0x90 0x01) = 400)]
    norm_num
  case refine_3 =>
    show ((signedRaw (rawOf 0x5E 0xFF) : Int) : ℚ) / 16 = -10.125
    rw [(by decide : signedRaw (rawOf 0x5E 0xFF) = -162)]
    norm_num
  case refine_4 =>
    show ((signedRaw (rawOf 0xD0 0x07) : Int) : ℚ) / 16 = 125
    rw [(by decide : signedRaw (rawOf 0xD0 0x07) = 2000)]
    norm_num
  case refine_5 =>
    show ((signedRaw (rawOf 0x90 0xFC) : Int) : ℚ) / 16 = -55
    rw [(by decide : signedRaw (rawOf 0x90 0xFC) = -880)]
    norm_num
  intro raw h
  have hpow : (2 : Nat) ^ 15 = 32768 := by norm_num
  by_cases hlt : raw < 32768
  · have h15 : raw.testBit 15 = false := by
      refine Nat.testBit_lt_two_pow ?_
      rw [hpow]
      omega
    have hand : raw &&& 0x8000 = 0 := by
      have ha := Nat.and_two_pow raw 15
      rw [h15] at ha
      simpa using ha
    simp [signedRaw, sextSpec, hand, hlt]
  · have h15 : raw.testBit 15 = true := by
      rw [Nat.testBit_to_div_mod]
      have hdiv : raw / 2 ^ 15 = 1 := by rw [hpow]; omega
      rw [hdiv]
      decide
    have hand : raw &&& 0x8000 = 2 ^ 15 := by
      have ha := Nat.and_two_pow raw 15
      rw [h15] at ha
      simpa using ha
    have hxor : raw ^^^ 0xFFFF = 65535 - raw := xor_ffff raw h
    simp only [signedRaw, sextSpec, hand, hxor, hlt, if_false]
    omega

/-! ## ROM search (`OneWire.rom_search`)

`rom_search` is embedded over an oracle environment `OWEnv` that answers
the n-th `reset()` and the n-th sampled 1-bit read slot; `none` models
the hardware call raising an exception.  The state `OWState` carries the
current framing width (`bits`) of the PIO state machine and counters for
resets and sampled reads.  Command-bit and direction-bit writes discard
their echoes and consume no oracle index. -/

structure OWEnv where
  resetAt : Nat → Option Bool
  readAt : Nat → Option Bool

@[ext]
structure OWState where
  bits : Nat
  resets : Nat
  reads : Nat
deriving DecidableEq

/-- The direction-selection logic of one bit position of `rom_search`
    (reached only when not both read slots returned 1): the chosen
    direction and the updated discrepancy marker.  Translated from the
    `if b1 != b2 ... else ...` block. -/
def searchStep (lastDisc : Int) (romCode : Nat) (i : Nat) (b1 b2 : Bool)
    (disc : Int) : Bool × Int :=
  if b1 ≠ b2 then (b1, disc)
  else
    let dir : Bool :=
      if (i : Int) = lastDisc then true
      else if (i : Int) > lastDisc then false
      else romCode.testBit i
    (dir, if dir = false then (i : Int) else disc)

/-- The `for i in range(64)` bit loop of one search pass.
    `Except.error ()` = a hardware read raised; `Except.ok none` = both
    read slots returned 1 (the Python code then returns the devices found
    so far); `Except.ok (some (rom, marker))` = the pass completed. -/
def passBits (env : OWEnv) (lastDisc : Int) (romCode : Nat) :
    Nat → Nat → Nat → Int → OWState →
    Except Unit (Option (Nat × Int)) × OWState
  | 0, _, cur, disc, s => (Except.ok (some (cur, disc)), s)
  | fuel + 1, i, cur, disc, s =>
    match env.readAt s.reads with
    | none => (Except.error (), { s with reads := s.reads + 1 })
    | some b1 =>
      match env.readAt (s.reads + 1) with
      | none => (Except.error (), { s with reads := s.reads + 2 })
      | some b2 =>
        let s2 : OWState := { s with reads := s.reads + 2 }
        if b1 && b2 then (Except.ok none, s2)
        else
          let r := searchStep lastDisc romCode i b1 b2 disc
          let cur2 := if r.1 then cur ||| (1 <<< i) else cur
          passBits env lastDisc romCode fuel (i + 1) cur2 r.2 s2

/-- The `while not finished` loop of `rom_search`.  `none` = fuel
    exhausted (the Python loop has not yet exited). -/
def searchLoop (env : OWEnv) :
    Nat → List Nat → Nat → Int → OWState →
    Option (Except Unit (List Nat) × OWState)
  | 0, _, _, _, _ => none
  | fuel + 1, found, romCode, lastDisc, s =>
    match env.resetAt s.resets with
    | none => some (Except.error (), { s with resets := s.resets + 1 })
    | some false => some (Except.ok [], { s with resets := s.resets + 1 })
    | some true =>
      let s1 : OWState := { s with resets := s.resets + 1 }
      match passBits env lastDisc romCode 64 0 0 (-1) s1 with
      | (Except.error e, s2) => some (Except.error e, s2)
      | (Except.ok none, s2) => some (Except.ok found, s2)
      | (Except.ok (some (rom, marker)), s2) =>
        let found2 := found ++ [rom]
        if marker = -1 then some (Except.ok found2, s2)
        else searchLoop env fuel found2 rom marker s2

/-- `OneWire.rom_search`: framing is switched to 1-bit, the search loop
    runs, and — as the `finally` block does — 8-bit framing is restored
    on every exit, normal or exceptional. -/
def romSearch (env : OWEnv) (fuel : Nat) :
    Option (Except Unit (List Nat) × OWState) :=
  match searchLoop env fuel [] 0 (-1) { bits := 1, resets := 0, reads := 0 } with
  | none => none
  | some (r, s) => some (r, { s with bits := 8 })

/-- C8: whenever `rom_search` exits (fuel left over), the final framing
    width is 8 bits — and all four exit paths are realizable with the
    restored framing: normal completion, abort on a reset without
    presence, abort because both read slots returned 1, and a hardware
    exception. -/
theorem romSearch_restores_framing :
    (∀ (env : OWEnv) (fuel : Nat) (r : Except Unit (List Nat)) (s : OWState),
      romSearch env fuel = some (r, s) → s.bits = 8) ∧
    romSearch ⟨fun _ => some true, fun n => some (n % 2 == 0)⟩ 1 =
      some (Except.ok [18446744073709551615], ⟨8, 1, 128⟩) ∧
    romSearch ⟨fun _ => some false, fun _ => some false⟩ 1 =
      some (Except.ok [], ⟨8, 1, 0⟩) ∧
    romSearch ⟨fun _ => some true, fun _ => some true⟩ 1 =
      some (Except.ok [], ⟨8, 1, 2⟩) ∧
    romSearch ⟨fun _ => some true, fun _ => none⟩ 1 =
      some (Except.error (), ⟨8, 1, 1⟩) := by
  refine ⟨?_, rfl, rfl, rfl, rfl⟩
  intro env fuel r s h
  unfold romSearch at h
  cases hm : searchLoop env fuel [] 0 (-1) { bits := 1, resets := 0, reads := 0 } with
  | none => rw [hm] at h; exact absurd h (by simp)
  | some out =>
    cases out with
    | mk r2 s2 =>
      rw [hm] at h
      simp only [Option.some.injEq, Prod.mk.injEq] at h
      rw [← h.2]

/-- The environment of the C2 counterexample: the first reset reports
    presence, the second does not; during pass 1, bit position 0 is a
    collision (both slots 0) and positions 1–63 agree on direction 0
    (b1 = 0, b2 = 1). -/
def envAbort : OWEnv :=
  ⟨fun n => some (n == 0), fun n => some (decide (2 ≤ n) && n % 2 == 1)⟩

/-- C2 counterexample: pass 1 of `rom_search` on `envAbort` completes
    and records ROM code 0 (with discrepancy marker 0), the next pass's
    reset reports no presence — and `rom_search` returns the empty list,
    not the previously found `[0]`. -/
theorem romSearch_abort_discards_found :
    (passBits envAbort (-1) 0 64 0 0 (-1) ⟨1, 1, 0⟩).1 =
      Except.ok (some (0, 0)) ∧
    envAbort.resetAt 1 = some false ∧
    romSearch envAbort 2 = some (Except.ok [], ⟨8, 2, 128⟩) :=
  ⟨rfl, rfl, rfl⟩

/-- C2 (amended): a bus reset reporting no presence makes `rom_search`
    return the empty list after that reset, discarding whatever was
    found in earlier passes. -/
theorem searchLoop_reset_no_presence (env : OWEnv) (fuel : Nat)
    (found : List Nat) (romCode : Nat) (lastDisc : Int) (s : OWState)
    (hr : env.resetAt s.resets = some false) :
    searchLoop env (fuel + 1) found romCode lastDisc s =
      some (Except.ok [], { s with resets := s.resets + 1 }) := by
  unfold searchLoop
  rw [hr]

/-- Modelled from the spec: the collision direction rule — 1 at the
    previous pass's discrepancy marker, 0 beyond it, and the bit of the
    previously constructed code below it. -/
def collisionDir (lastDisc : Int) (prevCode : Nat) (i : Nat) : Bool :=
  if (i : Int) = lastDisc then true
  else if (i : Int) > lastDisc then false
  else prevCode.testBit i

/-- C4: at a collision (both read slots 0) the chosen direction follows
    `collisionDir`, and the discrepancy marker becomes `i` exactly when
    that direction is 0; moreover a completed pass's marker is the
    `lastDisc` steering the next pass of the search loop. -/
theorem searchStep_collision :
    (∀ (lastDisc : Int) (romCode : Nat) (i : Nat) (disc : Int),
      searchStep lastDisc romCode i false false disc =
        (collisionDir lastDisc romCode i,
         if collisionDir lastDisc romCode i = false then (i : Int) else disc)) ∧
    (∀ (env : OWEnv) (fuel : Nat) (found : List Nat) (romCode : Nat)
       (lastDisc : Int) (s s2 : OWState) (rom : Nat) (marker : Int),
      env.resetAt s.resets = some true →
      passBits env lastDisc romCode 64 0 0 (-1) { s with resets := s.resets + 1 } =
        (Except.ok (some (rom, marker)), s2) →
      marker ≠ -1 →
      searchLoop env (fuel + 1) found romCode lastDisc s =
        searchLoop env fuel (found ++ [rom]) rom marker s2) := by
  constructor
  · intro lastDisc romCode i disc
    unfold searchStep collisionDir
    simp
  · intro env fuel found romCode lastDisc s s2 rom marker hr hp hm
    conv_lhs => unfold searchLoop
    rw [hr]
    dsimp only
    rw [hp]
    dsimp only
    rw [if_neg hm]

/-! ## Witnesses

Each hypothesis-bearing claim theorem applied at a concrete input. -/

theorem crc8_eq_crc8Ref_witness :
    crc8 [0x28, 0xFF, 0x4B] = crc8Ref [0x28, 0xFF, 0x4B] :=
  crc8_eq_crc8Ref [0x28, 0xFF, 0x4B] (by decide)

theorem crc8_append_self_and_bitflip_witness :
    crc8 ([0x42, 0xFA] ++ [crc8 [0x42, 0xFA]]) = 0 ∧
    crc8 ([0x42, 0xFA].set 0 ([0x42, 0xFA].getD 0 0 ^^^ (1 <<< 0))) ≠ 0 :=
  have h := crc8_append_self_and_bitflip [0x42, 0xFA] (by decide)
  ⟨h.1, h.2 (by decide) 0 (by decide) 0 (by decide)⟩

theorem readTemperatures_reset_fail_witness :
    readTemperatures ⟨fun _ => false, fun _ => 0⟩ [1] = ([], ⟨1, 0, 0⟩) :=
  readTemperatures_reset_fail ⟨fun _ => false, fun _ => 0⟩ [1] (by decide) rfl

theorem readTemperatures_poll_bounded_witness :
    (pollLoop ⟨fun _ => true, fun _ => 0⟩ 100 ⟨0, 0, 0⟩).reads ≤ 100 ∧
    readTemperatures ⟨fun _ => true, fun _ => 0⟩ [1] =
      readDevices ⟨fun _ => true, fun _ => 0⟩ [1] ⟨1, 2, 100⟩ :=
  have h := readTemperatures_poll_bounded ⟨fun _ => true, fun _ => 0⟩ [1]
    (by decide) rfl
  ⟨by simpa using h.1 ⟨0, 0, 0⟩, h.2 (fun i _ => by simp)⟩

theorem readTemperatures_every_device_witness :
    (readTemperatures ⟨fun _ => true, fun _ => 0⟩ [3]).1 =
      expectedReadings ⟨fun _ => true, fun _ => 0⟩
        (pollLoop ⟨fun _ => true, fun _ => 0⟩ 100 ⟨1, 2, 0⟩).reads [3] ∧
    (readTemperatures ⟨fun _ => true, fun _ => 0⟩ [3]).1.map Prod.fst = [3] :=
  readTemperatures_every_device ⟨fun _ => true, fun _ => 0⟩ [3] (by decide)
    (fun _ => rfl)

theorem decode_signext_and_vectors_witness :
    signedRaw 0x0190 = sextSpec 0x0190 :=
  decode_signext_and_vectors.1 0x0190 (by decide)

theorem searchLoop_reset_no_presence_witness :
    searchLoop ⟨fun _ => some false, fun _ => some false⟩ 1 [7] 0 (-1) ⟨1, 0, 0⟩ =
      some (Except.ok [], ⟨1, 1, 0⟩) :=
  searchLoop_reset_no_presence ⟨fun _ => some false, fun _ => some false⟩ 0
    [7] 0 (-1) ⟨1, 0, 0⟩ rfl

theorem searchStep_collision_witness :
    searchLoop envAbort 2 [] 0 (-1) ⟨1, 0, 0⟩ =
      searchLoop envAbort 1 [0] 0 0 ⟨1, 1, 128⟩ :=
  searchStep_collision.2 envAbort 1 [] 0 (-1) ⟨1, 0, 0⟩ ⟨1, 1, 128⟩ 0 0
    rfl rfl (by decide)

theorem romSearch_restores_framing_witness :
    ((⟨8, 1, 0⟩ : OWState)).bits = 8 :=
  romSearch_restores_framing.1 ⟨fun _ => some false, fun _ => some false⟩ 1
    (Except.ok []) ⟨8, 1, 0⟩ rfl

end OneWirePio
